import Mathlib

/-!
Shallow embedding of the Buckle label algebra of the labeled repository
(src/buckle/clause.rs, src/buckle/component.rs, src/buckle/mod.rs).
Rust BTreeSet values are modeled as Finset values; in-place mutation is
modeled by functions that return the new value.
-/

/-- Rust: type Principal = String (src/buckle/mod.rs). A principal chain
is a list of principals (Vec of Principal in the source). -/
abbrev Principal := String

/-- Rust: struct Clause(pub BTreeSet of Vec of Principal), in
src/buckle/clause.rs. A clause is a finite set of principal chains. -/
abbrev Clause := Finset (List Principal)

/-- Rust: Clause::implies (src/buckle/clause.rs, lines 47-64). True when
every chain of the left clause is a starting segment of some chain of
the right clause (the source calls ovec.starts_with(svec)), with the two
emptiness cases checked first exactly as in the source. -/
def Clause.implies (s o : Clause) : Bool :=
  if s = ∅ then true
  else if o = ∅ then false
  else decide (∀ svec ∈ s, ∃ ovec ∈ o, svec <+: ovec)

/-- Chains of a clause listed in increasing order; models the order in
which a Rust BTreeSet stores its elements (the derived Ord on Vec of
String is lexicographic, matched here by the lexicographic order on
List String). -/
def Clause.sortedChains (c : Clause) : List (List Principal) :=
  c.sort (· ≤ ·)

/-- Derived Ord on Clause: a Rust BTreeSet compares its sorted element
sequences lexicographically. -/
def Clause.lt (a b : Clause) : Prop :=
  Clause.sortedChains a < Clause.sortedChains b

instance (a b : Clause) : Decidable (Clause.lt a b) :=
  inferInstanceAs (Decidable (_ < _))

/-- Rust: enum Component (src/buckle/component.rs, lines 10-14). -/
inductive Component where
  | DCFalse : Component
  | DCFormula : Finset Clause → Component
deriving DecidableEq

namespace Component

/-- Rust: Component::dc_false. -/
def dc_false : Component := DCFalse

/-- Rust: Component::dc_true (the empty formula). -/
def dc_true : Component := DCFormula ∅

/-- Rust: Component::is_false. -/
def is_false : Component → Bool
  | DCFalse => true
  | DCFormula _ => false

/-- Rust: Component::is_true. -/
def is_true : Component → Bool
  | DCFalse => false
  | DCFormula o => decide (o = ∅)

/-- Rust: Component::implies (src/buckle/component.rs, lines 65-77). The
two if branches model the two guarded arms of the source match (other
is the constant true, then self is the constant true); the final case is
the all/any loop over the two clause sets. -/
def implies : Component → Component → Bool
  | DCFalse, _ => true
  | _, DCFalse => false
  | DCFormula s, DCFormula o =>
    if o = ∅ then true
    else if s = ∅ then false
    else decide (∀ oclause ∈ o, ∃ sclause ∈ s, Clause.implies sclause oclause = true)

/-- Membership in the rmlist computed by Component::reduce
(src/buckle/component.rs, lines 79-98). The source visits every pair
(clausef, clauser) with clausef stored before clauser in BTreeSet order
and marks clauser when clausef implies it, otherwise marks clausef when
clauser implies it. Hence a clause c is marked exactly when some other
clause d of the set implies c and, in case c also implies d back, d is
stored before c. -/
def removable (clauses : Finset Clause) (c : Clause) : Prop :=
  ∃ d ∈ clauses, d ≠ c ∧ Clause.implies d c = true ∧
    (Clause.lt d c ∨ ¬ Clause.implies c d = true)

instance (clauses : Finset Clause) (c : Clause) : Decidable (removable clauses c) := by
  unfold removable
  infer_instance

/-- Rust: Component::reduce. The source first collects rmlist over all
pairs and only then removes its members, so the result keeps exactly the
clauses that are not marked. -/
def reduce : Component → Component
  | DCFalse => DCFalse
  | DCFormula clauses => DCFormula (clauses.filter fun c => ¬ removable clauses c)

/-- Rust: impl BitAnd for Component (src/buckle/component.rs, lines
123-135): DCFalse absorbs, two formulas append their clause sets. -/
def bitand : Component → Component → Component
  | DCFalse, _ => DCFalse
  | _, DCFalse => DCFalse
  | DCFormula s, DCFormula o => DCFormula (s ∪ o)

/-- Rust: impl BitOr for Component (src/buckle/component.rs, lines
137-158), as written in the source: for each clause of the left operand
the inner loop appends the chain sets of ALL clauses of the right
operand into it and the single insert sits after the inner loop, so each
left clause becomes its union with the union of every right clause. -/
def bitor : Component → Component → Component
  | s, DCFalse => s
  | DCFalse, o => o
  | DCFormula s, DCFormula o =>
    if s = ∅ ∨ o = ∅ then dc_true
    else DCFormula (s.image fun clauses => clauses ∪ o.biUnion (fun x => x))

/-- Reduced form: no clause of the formula implies a distinct clause of
the same formula (the clause set is an antichain under Clause.implies);
DCFalse is trivially reduced. -/
def Reduced : Component → Prop
  | DCFalse => True
  | DCFormula clauses =>
    ∀ c ∈ clauses, ∀ d ∈ clauses, c ≠ d → Clause.implies c d = false

instance : (x : Component) → Decidable x.Reduced
  | DCFalse => isTrue trivial
  | DCFormula clauses =>
    inferInstanceAs
      (Decidable (∀ c ∈ clauses, ∀ d ∈ clauses, c ≠ d → Clause.implies c d = false))

end Component

/-- Truth-assignment semantics of a clause: a clause is the disjunction
of its principal chains. -/
def Clause.Sat (v : List Principal → Prop) (c : Clause) : Prop :=
  ∃ ch ∈ c, v ch

/-- Truth-assignment semantics of a component: DCFalse is unsatisfiable
and a formula is the conjunction of its clauses, so the empty formula is
the constant true. -/
def Component.Sat (v : List Principal → Prop) : Component → Prop
  | Component.DCFalse => False
  | Component.DCFormula s => ∀ c ∈ s, Clause.Sat v c

/-- Rust: struct Buckle (src/buckle/mod.rs, lines 25-29). -/
structure Buckle where
  secrecy : Component
  integrity : Component
deriving DecidableEq

namespace Buckle

/-- Rust: Buckle::new (src/buckle/mod.rs, lines 104-110); reduces both
components. -/
def new (secrecy integrity : Component) : Buckle :=
  ⟨secrecy.reduce, integrity.reduce⟩

/-- Rust: Buckle::public. -/
def public : Buckle := new Component.dc_true Component.dc_true

/-- Rust: Buckle::top. -/
def top : Buckle := new Component.dc_false Component.dc_true

/-- Rust: Buckle::bottom. -/
def bottom : Buckle := new Component.dc_true Component.dc_false

/-- Rust: Buckle::endorse (src/buckle/mod.rs, lines 129-132). -/
def endorse (l : Buckle) (privilege : Component) : Buckle :=
  ⟨l.secrecy, privilege.bitand l.integrity⟩

/-- Rust: Label::lub for Buckle (src/buckle/mod.rs, lines 136-143); the
source reduces both components of the result. -/
def lub (l rhs : Buckle) : Buckle :=
  ⟨(l.secrecy.bitand rhs.secrecy).reduce, (l.integrity.bitor rhs.integrity).reduce⟩

/-- Rust: Label::glb for Buckle (src/buckle/mod.rs, lines 145-152); the
source reduces both components of the result. -/
def glb (l rhs : Buckle) : Buckle :=
  ⟨(l.secrecy.bitor rhs.secrecy).reduce, (l.integrity.bitand rhs.integrity).reduce⟩

/-- Rust: Label::can_flow_to for Buckle (src/buckle/mod.rs, lines
154-157). -/
def can_flow_to (l rhs : Buckle) : Bool :=
  Component.implies rhs.secrecy l.secrecy &&
    Component.implies l.integrity rhs.integrity

/-- Rust: HasPrivilege::downgrade for Buckle (src/buckle/mod.rs, lines
162-174). The retain call of the source keeps a secrecy clause exactly
when no privilege clause implies it. -/
def downgrade (l : Buckle) (privilege : Component) : Buckle :=
  { secrecy :=
      match l.secrecy, privilege with
      | _, Component.DCFalse => Component.dc_true
      | Component.DCFalse, _ => Component.dc_false
      | Component.DCFormula sec, Component.DCFormula p =>
        Component.DCFormula
          (sec.filter fun c => ¬ ∃ pclause ∈ p, Clause.implies pclause c = true)
    integrity := privilege.bitand l.integrity }

/-- Rust: HasPrivilege::can_flow_to_with_privilege for Buckle
(src/buckle/mod.rs, lines 184-187). -/
def can_flow_to_with_privilege (l rhs : Buckle) (privilege : Component) : Bool :=
  Component.implies (rhs.secrecy.bitand privilege) l.secrecy &&
    Component.implies (l.integrity.bitand privilege) rhs.integrity

/-- Rust: HasPrivilege::downgrade_to for Buckle (src/buckle/mod.rs,
lines 176-182). -/
def downgrade_to (l target : Buckle) (privilege : Component) : Buckle :=
  if l.can_flow_to_with_privilege target privilege then target else l

end Buckle

/-! Basic lemmas about Clause.implies and the clause order. -/

theorem Clause.implies_iff (s o : Clause) :
    Clause.implies s o = true ↔ ∀ svec ∈ s, ∃ ovec ∈ o, svec <+: ovec := by
  unfold Clause.implies
  split_ifs with h1 h2
  · subst h1; simp
  · subst h2
    constructor
    · intro h; simp at h
    · intro h
      obtain ⟨x, hx⟩ := Finset.nonempty_iff_ne_empty.mpr h1
      obtain ⟨y, hy, _⟩ := h x hx
      exact absurd hy (Finset.not_mem_empty y)
  · simp [decide_eq_true_eq]

theorem Clause.implies_self (c : Clause) : Clause.implies c c = true := by
  rw [Clause.implies_iff]
  intro sv hsv
  exact ⟨sv, hsv, List.prefix_refl sv⟩

theorem Clause.implies_chain {a b c : Clause} (h1 : Clause.implies a b = true)
    (h2 : Clause.implies b c = true) : Clause.implies a c = true := by
  rw [Clause.implies_iff] at h1 h2 ⊢
  intro sv hsv
  obtain ⟨mv, hmv, hp1⟩ := h1 sv hsv
  obtain ⟨ov, hov, hp2⟩ := h2 mv hmv
  exact ⟨ov, hov, hp1.trans hp2⟩

theorem Clause.implies_of_subset {s o : Clause} (h : s ⊆ o) :
    Clause.implies s o = true := by
  rw [Clause.implies_iff]
  intro sv hsv
  exact ⟨sv, h hsv, List.prefix_refl sv⟩

theorem Clause.not_lt_self (c : Clause) : ¬ Clause.lt c c := by
  unfold Clause.lt
  exact lt_irrefl _

theorem Clause.lt_trans {a b c : Clause} (h1 : Clause.lt a b) (h2 : Clause.lt b c) :
    Clause.lt a c := by
  unfold Clause.lt at h1 h2 ⊢
  exact h1.trans h2

theorem Clause.lt_total {a b : Clause} (h : a ≠ b) : Clause.lt a b ∨ Clause.lt b a := by
  rcases lt_trichotomy (Clause.sortedChains a) (Clause.sortedChains b) with h1 | h1 | h1
  · exact Or.inl h1
  · exfalso
    apply h
    have h2 := congrArg List.toFinset h1
    rwa [Clause.sortedChains, Clause.sortedChains, Finset.sort_toFinset,
      Finset.sort_toFinset] at h2
  · exact Or.inr h1

/-- Strict precedence used by the reduce marking: d precedes c when d
implies c and either d is stored before c or c does not imply d back.
A clause marked by reduce is exactly one preceded by another clause of
the set. -/
def Clause.prec (d c : Clause) : Prop :=
  Clause.implies d c = true ∧ (Clause.lt d c ∨ ¬ Clause.implies c d = true)

instance (d c : Clause) : Decidable (Clause.prec d c) := by
  unfold Clause.prec
  infer_instance

theorem Clause.prec_irrefl (c : Clause) : ¬ Clause.prec c c := by
  rintro ⟨-, h | h⟩
  · exact Clause.not_lt_self c h
  · exact h (Clause.implies_self c)

theorem Clause.prec_trans {d c b : Clause} (h1 : Clause.prec d c)
    (h2 : Clause.prec c b) : Clause.prec d b := by
  obtain ⟨hdc, hside1⟩ := h1
  obtain ⟨hcb, hside2⟩ := h2
  refine ⟨Clause.implies_chain hdc hcb, ?_⟩
  by_cases hbd : Clause.implies b d = true
  · have hbc : Clause.implies b c = true := Clause.implies_chain hbd hdc
    have hcltb : Clause.lt c b := by
      rcases hside2 with h | h
      · exact h
      · exact absurd hbc h
    rcases hside1 with h | h
    · exact Or.inl (Clause.lt_trans h hcltb)
    · exact absurd (Clause.implies_chain hcb hbd) h
  · exact Or.inr hbd

theorem Clause.exists_prec_minimal :
    ∀ T : Finset Clause, T.Nonempty → ∃ m ∈ T, ∀ d ∈ T, ¬ Clause.prec d m := by
  intro T
  induction T using Finset.strongInduction with
  | _ T ih =>
    intro h
    obtain ⟨x, hx⟩ := h
    by_cases hFe : (T.filter fun d => Clause.prec d x) = ∅
    · refine ⟨x, hx, fun d hd hprec => ?_⟩
      have hdF : d ∈ T.filter fun d => Clause.prec d x :=
        Finset.mem_filter.mpr ⟨hd, hprec⟩
      rw [hFe] at hdF
      exact absurd hdF (Finset.not_mem_empty d)
    · have hFsub : (T.filter fun d => Clause.prec d x) ⊂ T := by
        refine (Finset.ssubset_iff_of_subset (Finset.filter_subset _ _)).mpr ?_
        exact ⟨x, hx, fun hxF => Clause.prec_irrefl x (Finset.mem_filter.mp hxF).2⟩
      obtain ⟨m, hmF, hmin⟩ :=
        ih _ hFsub (Finset.nonempty_iff_ne_empty.mpr hFe)
      have hmT : m ∈ T := Finset.filter_subset _ _ hmF
      have hmx : Clause.prec m x := (Finset.mem_filter.mp hmF).2
      refine ⟨m, hmT, fun d hd hprec => ?_⟩
      have hdF : d ∈ T.filter fun d => Clause.prec d x :=
        Finset.mem_filter.mpr ⟨hd, Clause.prec_trans hprec hmx⟩
      exact hmin d hdF hprec

/-! Lemmas about Component.implies, bitand, bitor and reduce. -/

theorem Component.implies_formula_iff (A B : Finset Clause) :
    Component.implies (Component.DCFormula A) (Component.DCFormula B) = true ↔
      B = ∅ ∨ (A ≠ ∅ ∧ ∀ oc ∈ B, ∃ sc ∈ A, Clause.implies sc oc = true) := by
  show (if B = ∅ then true
    else if A = ∅ then false
    else decide (∀ oclause ∈ B, ∃ sclause ∈ A, Clause.implies sclause oclause = true)) =
      true ↔ _
  split_ifs with h1 h2
  · simp [h1]
  · constructor
    · intro h; simp at h
    · rintro (hB | ⟨hA, -⟩)
      · exact absurd hB h1
      · exact absurd h2 hA
  · simp [h1, h2, decide_eq_true_eq]

theorem Component.implies_refl (x : Component) : x.implies x = true := by
  cases x with
  | DCFalse => rfl
  | DCFormula s =>
    rw [Component.implies_formula_iff]
    by_cases h : s = ∅
    · exact Or.inl h
    · exact Or.inr ⟨h, fun oc hoc => ⟨oc, hoc, Clause.implies_self oc⟩⟩

theorem Component.implies_trans {a b c : Component} (h1 : a.implies b = true)
    (h2 : b.implies c = true) : a.implies c = true := by
  cases a with
  | DCFalse => cases c <;> rfl
  | DCFormula A =>
    cases b with
    | DCFalse => simp [Component.implies] at h1
    | DCFormula B =>
      cases c with
      | DCFalse => simp [Component.implies] at h2
      | DCFormula C =>
        rw [Component.implies_formula_iff] at h1 h2 ⊢
        rcases h2 with hC | ⟨hB, h2⟩
        · exact Or.inl hC
        · rcases h1 with hB2 | ⟨hA, h1⟩
          · exact absurd hB2 hB
          · refine Or.inr ⟨hA, fun oc hoc => ?_⟩
            obtain ⟨bc, hbc, h3⟩ := h2 oc hoc
            obtain ⟨ac, hac, h4⟩ := h1 bc hbc
            exact ⟨ac, hac, Clause.implies_chain h4 h3⟩

theorem Component.bitand_comm (a b : Component) : a.bitand b = b.bitand a := by
  cases a <;> cases b <;> simp [Component.bitand]
  exact Finset.union_comm _ _

theorem Component.bitand_dc_true (a : Component) : a.bitand Component.dc_true = a := by
  cases a with
  | DCFalse => rfl
  | DCFormula s => simp [Component.bitand, Component.dc_true]

theorem Component.bitand_implies_left (a b : Component) :
    (a.bitand b).implies a = true := by
  cases a with
  | DCFalse => cases b <;> rfl
  | DCFormula A =>
    cases b with
    | DCFalse => rfl
    | DCFormula B =>
      show Component.implies (Component.DCFormula (A ∪ B)) (Component.DCFormula A) = true
      rw [Component.implies_formula_iff]
      by_cases hA : A = ∅
      · exact Or.inl hA
      · refine Or.inr ⟨?_, fun oc hoc => ⟨oc, Finset.mem_union_left B hoc, Clause.implies_self oc⟩⟩
        intro hAB
        exact hA (Finset.union_eq_empty.mp hAB).1

theorem Component.bitand_implies_right (a b : Component) :
    (a.bitand b).implies b = true := by
  rw [Component.bitand_comm]
  exact Component.bitand_implies_left b a

theorem Component.implies_bitor_left (a b : Component) :
    a.implies (a.bitor b) = true := by
  cases a with
  | DCFalse => cases b <;> rfl
  | DCFormula A =>
    cases b with
    | DCFalse => exact Component.implies_refl _
    | DCFormula B =>
      show Component.implies (Component.DCFormula A)
        (if A = ∅ ∨ B = ∅ then Component.dc_true
          else Component.DCFormula
            (A.image fun clauses => clauses ∪ B.biUnion (fun x => x))) = true
      split_ifs with h
      · rw [Component.dc_true, Component.implies_formula_iff]
        exact Or.inl rfl
      · push_neg at h
        rw [Component.implies_formula_iff]
        refine Or.inr ⟨h.1, fun oc hoc => ?_⟩
        obtain ⟨cs, hcs, rfl⟩ := Finset.mem_image.mp hoc
        exact ⟨cs, hcs, Clause.implies_of_subset Finset.subset_union_left⟩

theorem Component.implies_bitor_right (a b : Component) :
    b.implies (a.bitor b) = true := by
  cases b with
  | DCFalse => cases a.bitor Component.DCFalse <;> rfl
  | DCFormula B =>
    cases a with
    | DCFalse => exact Component.implies_refl _
    | DCFormula A =>
      show Component.implies (Component.DCFormula B)
        (if A = ∅ ∨ B = ∅ then Component.dc_true
          else Component.DCFormula
            (A.image fun clauses => clauses ∪ B.biUnion (fun x => x))) = true
      split_ifs with h
      · rw [Component.dc_true, Component.implies_formula_iff]
        exact Or.inl rfl
      · push_neg at h
        rw [Component.implies_formula_iff]
        refine Or.inr ⟨h.2, fun oc hoc => ?_⟩
        obtain ⟨cs, hcs, rfl⟩ := Finset.mem_image.mp hoc
        obtain ⟨d, hd⟩ := Finset.nonempty_iff_ne_empty.mpr h.2
        refine ⟨d, hd, Clause.implies_of_subset fun x hx => ?_⟩
        exact Finset.mem_union_right _ (Finset.mem_biUnion.mpr ⟨d, hd, hx⟩)

theorem Component.removable_iff (S : Finset Clause) (c : Clause) :
    Component.removable S c ↔ ∃ d ∈ S, Clause.prec d c := by
  unfold Component.removable Clause.prec
  constructor
  · rintro ⟨d, hd, -, h2, h3⟩
    exact ⟨d, hd, h2, h3⟩
  · rintro ⟨d, hd, h2, h3⟩
    refine ⟨d, hd, ?_, h2, h3⟩
    rintro rfl
    rcases h3 with h | h
    · exact Clause.not_lt_self d h
    · exact h (Clause.implies_self d)

theorem Component.exists_unremovable_implier {S : Finset Clause} {c : Clause}
    (hc : c ∈ S) :
    ∃ m ∈ S, ¬ Component.removable S m ∧ Clause.implies m c = true := by
  have hcT : c ∈ S.filter fun d => Clause.implies d c = true :=
    Finset.mem_filter.mpr ⟨hc, Clause.implies_self c⟩
  obtain ⟨m, hmT, hmin⟩ := Clause.exists_prec_minimal _ ⟨c, hcT⟩
  have hmS : m ∈ S := Finset.filter_subset _ _ hmT
  have hmc : Clause.implies m c = true := (Finset.mem_filter.mp hmT).2
  refine ⟨m, hmS, ?_, hmc⟩
  intro hrem
  obtain ⟨d, hdS, hprec⟩ := (Component.removable_iff S m).mp hrem
  have hdT : d ∈ S.filter fun d => Clause.implies d c = true :=
    Finset.mem_filter.mpr ⟨hdS, Clause.implies_chain hprec.1 hmc⟩
  exact hmin d hdT hprec

theorem Component.removable_of_implies {S : Finset Clause} {c d : Clause}
    (hc : c ∈ S) (hd : d ∈ S) (hne : c ≠ d) (h : Clause.implies c d = true) :
    Component.removable S d ∨ Component.removable S c := by
  rcases Clause.lt_total hne with hlt | hlt
  · exact Or.inl ⟨c, hc, hne, h, Or.inl hlt⟩
  · by_cases hdc : Clause.implies d c = true
    · exact Or.inr ⟨d, hd, Ne.symm hne, hdc, Or.inl hlt⟩
    · exact Or.inl ⟨c, hc, hne, h, Or.inr hdc⟩

theorem Component.reduce_reduced (x : Component) : x.reduce.Reduced := by
  cases x with
  | DCFalse => trivial
  | DCFormula S =>
    show Component.Reduced (Component.DCFormula (S.filter fun c => ¬ removable S c))
    intro c hc d hd hne
    obtain ⟨hcS, hcrem⟩ := Finset.mem_filter.mp hc
    obtain ⟨hdS, hdrem⟩ := Finset.mem_filter.mp hd
    by_contra hne2
    have h : Clause.implies c d = true := by
      cases hb : Clause.implies c d
      · exact absurd hb hne2
      · rfl
    rcases Component.removable_of_implies hcS hdS hne h with hr | hr
    · exact hdrem hr
    · exact hcrem hr

theorem Component.reduce_eq_self_of_reduced {x : Component} (h : x.Reduced) :
    x.reduce = x := by
  cases x with
  | DCFalse => rfl
  | DCFormula S =>
    show Component.DCFormula (S.filter fun c => ¬ removable S c) = Component.DCFormula S
    congr 1
    refine Finset.filter_eq_self.mpr fun c hc hrem => ?_
    obtain ⟨d, hd, hdne, hdc, -⟩ := hrem
    have hfalse := h d hd c hc hdne
    rw [hfalse] at hdc
    cases hdc

theorem Component.reduce_idem (x : Component) : x.reduce.reduce = x.reduce :=
  Component.reduce_eq_self_of_reduced (Component.reduce_reduced x)

theorem Component.reduce_implies_self (x : Component) :
    x.reduce.implies x = true := by
  cases x with
  | DCFalse => rfl
  | DCFormula S =>
    show Component.implies (Component.DCFormula (S.filter fun c => ¬ removable S c))
      (Component.DCFormula S) = true
    rw [Component.implies_formula_iff]
    by_cases hS : S = ∅
    · exact Or.inl hS
    · refine Or.inr ⟨?_, fun oc hoc => ?_⟩
      · obtain ⟨c, hc⟩ := Finset.nonempty_iff_ne_empty.mpr hS
        obtain ⟨m, hmS, hmrem, hmc⟩ := Component.exists_unremovable_implier hc
        intro hemp
        have hmem : m ∈ S.filter fun c => ¬ removable S c :=
          Finset.mem_filter.mpr ⟨hmS, hmrem⟩
        rw [hemp] at hmem
        exact absurd hmem (Finset.not_mem_empty m)
      · obtain ⟨m, hmS, hmrem, hmoc⟩ := Component.exists_unremovable_implier hoc
        exact ⟨m, Finset.mem_filter.mpr ⟨hmS, hmrem⟩, hmoc⟩

theorem Component.implies_reduce_self (x : Component) :
    x.implies x.reduce = true := by
  cases x with
  | DCFalse => rfl
  | DCFormula S =>
    show Component.implies (Component.DCFormula S)
      (Component.DCFormula (S.filter fun c => ¬ removable S c)) = true
    rw [Component.implies_formula_iff]
    by_cases hF : (S.filter fun c => ¬ removable S c) = ∅
    · exact Or.inl hF
    · refine Or.inr ⟨?_, fun oc hoc => ⟨oc, (Finset.mem_filter.mp hoc).1, Clause.implies_self oc⟩⟩
      intro hS
      apply hF
      rw [hS]
      exact Finset.filter_empty _

/-! Claim theorems. -/

/-- Claim C1: the claim states that BitOr on two formulas produces, for
every pair of clauses (one from each side), the union of their principal
sets. The source does not: each left clause absorbs the chains of ALL
right clauses (one result clause per left clause), so on the input
self = one clause (Amit), other = two clauses (Yue) and (Deian) the code
yields the single clause (Amit or Yue or Deian) instead of the two
pairwise clauses, and the operation is not even commutative. -/
theorem bitor_appends_all_right_clauses :
    Component.bitor
        (Component.DCFormula {({["Amit"]} : Clause)})
        (Component.DCFormula {({["Yue"]} : Clause), ({["Deian"]} : Clause)})
      = Component.DCFormula {({["Amit"], ["Yue"], ["Deian"]} : Clause)} ∧
    Component.bitor
        (Component.DCFormula {({["Amit"]} : Clause)})
        (Component.DCFormula {({["Yue"]} : Clause), ({["Deian"]} : Clause)})
      ≠ Component.DCFormula
          {({["Amit"], ["Yue"]} : Clause), ({["Amit"], ["Deian"]} : Clause)} ∧
    Component.bitor
        (Component.DCFormula {({["Amit"]} : Clause)})
        (Component.DCFormula {({["Yue"]} : Clause), ({["Deian"]} : Clause)})
      ≠ Component.bitor
          (Component.DCFormula {({["Yue"]} : Clause), ({["Deian"]} : Clause)})
          (Component.DCFormula {({["Amit"]} : Clause)}) := by
  decide

/-- Claim C2 counterexample: endorse is one of the listed public
operations, yet the label it returns has a non-reduced integrity
component: endorsing integrity (a or b) with privilege (a) yields the
clause set with clauses (a) and (a or b), and (a) implies (a or b). -/
theorem endorse_integrity_not_reduced :
    ¬ (Buckle.endorse
        (Buckle.new Component.dc_true
          (Component.DCFormula {({["a"], ["b"]} : Clause)}))
        (Component.DCFormula {({["a"]} : Clause)})).integrity.Reduced := by
  decide

/-- Claim C2 (amended): every label produced by Buckle::new, lub or glb
has both components in reduced form (an antichain under
clause-implication); endorse, downgrade and downgrade_to do not reduce
their outputs. -/
theorem new_lub_glb_reduced (s i : Component) (a b : Buckle) :
    (Buckle.new s i).secrecy.Reduced ∧ (Buckle.new s i).integrity.Reduced ∧
    (a.lub b).secrecy.Reduced ∧ (a.lub b).integrity.Reduced ∧
    (a.glb b).secrecy.Reduced ∧ (a.glb b).integrity.Reduced :=
  ⟨Component.reduce_reduced s, Component.reduce_reduced i,
   Component.reduce_reduced _, Component.reduce_reduced _,
   Component.reduce_reduced _, Component.reduce_reduced _⟩

/-- Claim C3: Component.implies is sound for logical entailment: if it
returns true, every truth assignment on principal chains that is closed
under chain extension and satisfies the left component also satisfies
the right component. -/
theorem component_implies_sound (a b : Component) (v : List Principal → Prop)
    (hv : ∀ s t, v s → v (s ++ t)) (h : a.implies b = true)
    (ha : Component.Sat v a) : Component.Sat v b := by
  cases a with
  | DCFalse => exact ha.elim
  | DCFormula A =>
    cases b with
    | DCFalse => simp [Component.implies] at h
    | DCFormula B =>
      rw [Component.implies_formula_iff] at h
      intro c hc
      rcases h with hB | ⟨hA, h⟩
      · subst hB
        exact absurd hc (Finset.not_mem_empty c)
      · obtain ⟨sc, hsc, himp⟩ := h c hc
        obtain ⟨ch, hch, hvch⟩ := ha sc hsc
        rw [Clause.implies_iff] at himp
        obtain ⟨ov, hov, hp⟩ := himp ch hch
        obtain ⟨t, rfl⟩ := hp
        exact ⟨ch ++ t, hov, hv ch t hvch⟩

/-- Concrete left component for the claim C3 witness. -/
def satWitnessLeft : Component := Component.DCFormula {({["x"]} : Clause)}

/-- Concrete right component for the claim C3 witness. -/
def satWitnessRight : Component := Component.DCFormula {({["x", "z"]} : Clause)}

/-- Concrete extension-closed assignment for the claim C3 witness: true
exactly on the chains that start with the principal x. -/
def satWitnessAssign : List Principal → Prop := fun ch => ∃ t, ch = "x" :: t

/-- Witness for claim C3 at concrete components and assignment. -/
theorem component_implies_sound_witness :
    Component.Sat satWitnessAssign satWitnessRight :=
  component_implies_sound satWitnessLeft satWitnessRight satWitnessAssign
    (fun s t hs => by
      obtain ⟨u, rfl⟩ := hs
      exact ⟨u ++ t, by simp⟩)
    (by decide)
    (by
      intro c hc
      rw [Finset.mem_singleton] at hc
      subst hc
      exact ⟨["x"], Finset.mem_singleton_self _, ⟨[], rfl⟩⟩)

/-- Claim C4: Clause.implies returns true exactly when every principal
chain of the left clause is a (proper or equal) starting segment of some
chain of the right clause; in particular an empty left clause yields
true for every right clause, and a nonempty left clause yields false on
an empty right clause. -/
theorem clause_implies_characterization (s o : Clause) :
    Clause.implies s o = true ↔ ∀ sv ∈ s, ∃ ov ∈ o, sv <+: ov :=
  Clause.implies_iff s o

/-- Claim C5: case behaviour of Component.implies — DCFalse implies
everything; nothing else implies DCFalse; anything implies the constant
true; the constant true implies no nonempty formula; and on two nonempty
formulas the result is true exactly when every clause of the right
formula is implied by at least one clause of the left formula. -/
theorem component_implies_cases (a b : Component) :
    (a = Component.DCFalse → a.implies b = true) ∧
    (a ≠ Component.DCFalse → b = Component.DCFalse → a.implies b = false) ∧
    (b.is_true = true → a.implies b = true) ∧
    (a.is_true = true → ∀ ob, b = Component.DCFormula ob → ob ≠ ∅ →
      a.implies b = false) ∧
    (∀ sa ob, a = Component.DCFormula sa → b = Component.DCFormula ob →
      sa ≠ ∅ → ob ≠ ∅ →
      (a.implies b = true ↔
        ∀ oc ∈ ob, ∃ sc ∈ sa, Clause.implies sc oc = true)) := by
  refine ⟨?_, ?_, ?_, ?_, ?_⟩
  · rintro rfl
    cases b <;> rfl
  · intro ha hb
    subst hb
    cases a with
    | DCFalse => exact absurd rfl ha
    | DCFormula sa => rfl
  · intro hb
    cases b with
    | DCFalse => simp [Component.is_true] at hb
    | DCFormula ob =>
      have hob : ob = ∅ := of_decide_eq_true hb
      cases a with
      | DCFalse => rfl
      | DCFormula sa =>
        rw [Component.implies_formula_iff]
        exact Or.inl hob
  · intro ha ob hb hob
    subst hb
    cases a with
    | DCFalse => simp [Component.is_true] at ha
    | DCFormula sa =>
      have hsa : sa = ∅ := of_decide_eq_true ha
      subst hsa
      cases hres : Component.implies (Component.DCFormula ∅) (Component.DCFormula ob)
      · rfl
      · rw [Component.implies_formula_iff] at hres
        rcases hres with h | ⟨h, -⟩
        · exact absurd h hob
        · exact absurd rfl h
  · intro sa ob ha hb hsa hob
    subst ha
    subst hb
    rw [Component.implies_formula_iff]
    constructor
    · rintro (h | ⟨-, h⟩)
      · exact absurd h hob
      · exact h
    · intro h
      exact Or.inr ⟨hsa, h⟩

/-- Witness for claim C5: the last case of the theorem evaluated on two
concrete one-clause formulas. -/
theorem component_implies_cases_witness :
    Component.implies (Component.DCFormula {({["p"]} : Clause)})
      (Component.DCFormula {({["p"], ["q"]} : Clause)}) = true :=
  ((component_implies_cases
      (Component.DCFormula {({["p"]} : Clause)})
      (Component.DCFormula {({["p"], ["q"]} : Clause)})).2.2.2.2
    _ _ rfl rfl (by decide) (by decide)).mpr (by decide)

/-- Claim C6: downgrade returns the label whose integrity is always
privilege AND integrity, and whose secrecy is the constant true when the
privilege is DCFalse, stays DCFalse when the secrecy is DCFalse and the
privilege is not, and otherwise keeps exactly the secrecy clauses that
no privilege clause implies. -/
theorem downgrade_characterization (l : Buckle) (p : Component) :
    (l.downgrade p).integrity = p.bitand l.integrity ∧
    (p = Component.DCFalse → (l.downgrade p).secrecy = Component.dc_true) ∧
    (p ≠ Component.DCFalse → l.secrecy = Component.DCFalse →
      (l.downgrade p).secrecy = Component.DCFalse) ∧
    (∀ sec pp, l.secrecy = Component.DCFormula sec → p = Component.DCFormula pp →
      (l.downgrade p).secrecy =
        Component.DCFormula
          (sec.filter fun c => ¬ ∃ pclause ∈ pp, Clause.implies pclause c = true)) := by
  obtain ⟨s0, i0⟩ := l
  refine ⟨rfl, ?_, ?_, ?_⟩
  · rintro rfl
    cases s0 <;> rfl
  · intro hp hs
    cases hs
    cases p with
    | DCFalse => exact absurd rfl hp
    | DCFormula pp => rfl
  · intro sec pp hsec hp
    cases hsec
    cases hp
    rfl

/-- Witness for claim C6: the formula-formula case of the theorem on a
concrete label and privilege. -/
theorem downgrade_characterization_witness :
    (Buckle.downgrade
        ⟨Component.DCFormula {({["s"]} : Clause)}, Component.dc_true⟩
        (Component.DCFormula {({["s"]} : Clause)})).secrecy
      = Component.DCFormula
          (({({["s"]} : Clause)} : Finset Clause).filter
            fun c => ¬ ∃ pclause ∈ ({({["s"]} : Clause)} : Finset Clause),
              Clause.implies pclause c = true) :=
  (downgrade_characterization
      ⟨Component.DCFormula {({["s"]} : Clause)}, Component.dc_true⟩
      (Component.DCFormula {({["s"]} : Clause)})).2.2.2 _ _ rfl rfl

/-- Claim C7: reduce is a no-op on an already-reduced component (hence
idempotent), its output is an antichain under clause-implication, and it
is a no-op on DCFalse. -/
theorem reduce_idempotent_antichain (x : Component) :
    (x.Reduced → x.reduce = x) ∧
    x.reduce.reduce = x.reduce ∧
    x.reduce.Reduced ∧
    Component.reduce Component.DCFalse = Component.DCFalse :=
  ⟨fun h => Component.reduce_eq_self_of_reduced h,
   Component.reduce_idem x,
   Component.reduce_reduced x,
   rfl⟩

/-- Witness for claim C7: the no-op part of the theorem evaluated on a
concrete reduced component. -/
theorem reduce_idempotent_antichain_witness :
    Component.reduce (Component.DCFormula {({["w"]} : Clause)})
      = Component.DCFormula {({["w"]} : Clause)} :=
  (reduce_idempotent_antichain (Component.DCFormula {({["w"]} : Clause)})).1
    (by decide)

/-- Claim C8: join and meet are sound for the flow order: both arguments
can flow to their lub, and their glb can flow to both arguments. -/
theorem lub_glb_flow_sound (a b : Buckle) :
    a.can_flow_to (a.lub b) = true ∧ b.can_flow_to (a.lub b) = true ∧
    (a.glb b).can_flow_to a = true ∧ (a.glb b).can_flow_to b = true := by
  refine ⟨?_, ?_, ?_, ?_⟩
  · show (Component.implies ((a.secrecy.bitand b.secrecy).reduce) a.secrecy &&
      Component.implies a.integrity ((a.integrity.bitor b.integrity).reduce)) = true
    rw [Bool.and_eq_true]
    exact ⟨Component.implies_trans (Component.reduce_implies_self _)
        (Component.bitand_implies_left _ _),
      Component.implies_trans (Component.implies_bitor_left _ _)
        (Component.implies_reduce_self _)⟩
  · show (Component.implies ((a.secrecy.bitand b.secrecy).reduce) b.secrecy &&
      Component.implies b.integrity ((a.integrity.bitor b.integrity).reduce)) = true
    rw [Bool.and_eq_true]
    exact ⟨Component.implies_trans (Component.reduce_implies_self _)
        (Component.bitand_implies_right _ _),
      Component.implies_trans (Component.implies_bitor_right _ _)
        (Component.implies_reduce_self _)⟩
  · show (Component.implies a.secrecy ((a.secrecy.bitor b.secrecy).reduce) &&
      Component.implies ((a.integrity.bitand b.integrity).reduce) a.integrity) = true
    rw [Bool.and_eq_true]
    exact ⟨Component.implies_trans (Component.implies_bitor_left _ _)
        (Component.implies_reduce_self _),
      Component.implies_trans (Component.reduce_implies_self _)
        (Component.bitand_implies_left _ _)⟩
  · show (Component.implies b.secrecy ((a.secrecy.bitor b.secrecy).reduce) &&
      Component.implies ((a.integrity.bitand b.integrity).reduce) b.integrity) = true
    rw [Bool.and_eq_true]
    exact ⟨Component.implies_trans (Component.implies_bitor_right _ _)
        (Component.implies_reduce_self _),
      Component.implies_trans (Component.reduce_implies_self _)
        (Component.bitand_implies_right _ _)⟩

/-- Claim C9: downgrading to the target that only strengthens integrity
with the privilege coincides with endorse, and the privileged flow check
to that target always succeeds, so downgrade_to returns the target. -/
theorem endorse_downgrade_to_equiv (l : Buckle) (p : Component) :
    l.downgrade_to ⟨l.secrecy, l.integrity.bitand p⟩ p = l.endorse p ∧
    l.can_flow_to_with_privilege ⟨l.secrecy, l.integrity.bitand p⟩ p = true := by
  have hcfp : l.can_flow_to_with_privilege ⟨l.secrecy, l.integrity.bitand p⟩ p = true := by
    show (Component.implies (l.secrecy.bitand p) l.secrecy &&
      Component.implies (l.integrity.bitand p) (l.integrity.bitand p)) = true
    rw [Bool.and_eq_true]
    exact ⟨Component.bitand_implies_left _ _, Component.implies_refl _⟩
  refine ⟨?_, hcfp⟩
  have h2 : l.downgrade_to ⟨l.secrecy, l.integrity.bitand p⟩ p =
      ⟨l.secrecy, l.integrity.bitand p⟩ := by
    unfold Buckle.downgrade_to
    simp [hcfp]
  rw [h2]
  show (⟨l.secrecy, l.integrity.bitand p⟩ : Buckle) = ⟨l.secrecy, p.bitand l.integrity⟩
  rw [Component.bitand_comm]

/-- Claim C10: the trivial privilege (the constant-true component) makes
the privileged flow check agree exactly with the plain flow check. -/
theorem privilege_dc_true_identity (a b : Buckle) :
    a.can_flow_to_with_privilege b Component.dc_true = a.can_flow_to b := by
  show (Component.implies (b.secrecy.bitand Component.dc_true) a.secrecy &&
    Component.implies (a.integrity.bitand Component.dc_true) b.integrity) =
    (Component.implies b.secrecy a.secrecy &&
      Component.implies a.integrity b.integrity)
  rw [Component.bitand_dc_true, Component.bitand_dc_true]
